import Mathlib

/-!
# Verification of `cpc/eval/ABX/abx_group_computation.py`

A shallow embedding of the ABX group-score computation module, together with
theorems settling the specified behaviour of each component:

* batch distance functions (`get_cosine_distance_batch`,
  `get_euclidian_distance_batch`) are embedded over real-valued tensors,
  a tensor of shape `(N, S, D)` being a function `Fin N → Fin S → Fin D → ℝ`;
* the distance-function selector and the shape-validity checks are embedded
  with an explicit Python-error taxonomy (`Except PyError`);
* the theta scorer (`get_theta_group_dtw`) is embedded at the level of the
  alignment-cost matrices `dxa`, `dxb` returned by the external DTW aligner
  (the aligner itself, `dtw.dtw_batch`, is an external collaborator and not
  part of this module), using exact rational arithmetic for the counting
  and normalisation stage;
* the worker pool (`worker` / the fan-in of `get_abx_scores_dtw_on_group`)
  is embedded as deterministic list processing: strided partition by
  `index % nprocess`, concatenation of the per-rank partial lists in rank
  order, and a sort by original index.
-/

namespace ABX

/-- The Python exception kinds that the module under study can raise:
`assert` failures, out-of-range tensor indexing, and `ValueError`. -/
inductive PyError where
  | assertionError
  | indexError
  | valueError
deriving DecidableEq, Repr

/-- `torch.clamp(v, lo, hi)`: clamp `v` into the interval `[lo, hi]`. -/
def tclamp (v lo hi : ℝ) : ℝ := min (max v lo) hi

/-- `get_cosine_distance_batch(a1, a2)`: the entry `[i, j, s, t]` of the
returned `(N1, N2, S1, S2)` tensor.  The source multiplies the broadcast
views, sums across the channel dimension, clamps to `[-1, 1]`, applies
`acos` and divides by `π`.  (The source's `epsilon` parameter is unused in
its body and is omitted here.) -/
noncomputable def get_cosine_distance_batch {N1 S1 N2 S2 D : ℕ}
    (a1 : Fin N1 → Fin S1 → Fin D → ℝ) (a2 : Fin N2 → Fin S2 → Fin D → ℝ)
    (i : Fin N1) (j : Fin N2) (s : Fin S1) (t : Fin S2) : ℝ :=
  Real.arccos (tclamp (∑ d, a1 i s d * a2 j t d) (-1) 1) / Real.pi

/-- `get_euclidian_distance_batch(a1, a2)`: the entry `[i, j, s, t]` of the
returned `(N1, N2, S1, S2)` tensor: the square root of the sum over the
channel dimension of the squared differences. -/
noncomputable def get_euclidian_distance_batch {N1 S1 N2 S2 D : ℕ}
    (a1 : Fin N1 → Fin S1 → Fin D → ℝ) (a2 : Fin N2 → Fin S2 → Fin D → ℝ)
    (i : Fin N1) (j : Fin N2) (s : Fin S1) (t : Fin S2) : ℝ :=
  Real.sqrt (∑ d, (a1 i s d - a2 j t d) ^ 2)

/-- The common type of the two batch distance functions: for any batch and
sequence dimensions, map two batches to the `(N1, N2, S1, S2)` distance
tensor. -/
def BatchDistanceFunction : Type :=
  ∀ (N1 S1 N2 S2 D : ℕ),
    (Fin N1 → Fin S1 → Fin D → ℝ) → (Fin N2 → Fin S2 → Fin D → ℝ) →
    (Fin N1 → Fin N2 → Fin S1 → Fin S2 → ℝ)

/-- `get_distance_function_from_name(name_str)`: return the euclidian or
cosine batch distance function for the two recognised names, and raise
`ValueError("Invalid distance mode")` for any other string. -/
noncomputable def get_distance_function_from_name (name_str : String) :
    Except PyError BatchDistanceFunction :=
  if name_str = "euclidian" then
    Except.ok (fun _ _ _ _ _ a1 a2 => get_euclidian_distance_batch a1 a2)
  else if name_str = "cosine" then
    Except.ok (fun _ _ _ _ _ a1 a2 => get_cosine_distance_batch a1 a2)
  else Except.error PyError.valueError

/-- `t.size(i)` for a tensor whose shape is the list `shape`: the `i`-th
entry of the shape, or an `IndexError` when the dimension does not exist. -/
def tensor_size (shape : List ℕ) (i : ℕ) : Except PyError ℕ :=
  match shape.get? i with
  | some n => Except.ok n
  | none => Except.error PyError.indexError

/-- `check_dtw_group_validity(a, b, x)` on tensors with shapes `a`, `b`,
`x`: assert equal ranks of `a` and `b`, then of `a` and `x`, then equal
sizes in dimension 2 of `a` and `x`, then of `a` and `b`; the first failing
assertion raises `AssertionError` (and reading a missing dimension 2 would
raise `IndexError`). -/
def check_dtw_group_validity (a b x : List ℕ) : Except PyError Unit :=
  if a.length = b.length then
    if a.length = x.length then
      match tensor_size a 2, tensor_size x 2 with
      | Except.ok da, Except.ok dx =>
          if da = dx then
            match tensor_size b 2 with
            | Except.ok db =>
                if da = db then Except.ok ()
                else Except.error PyError.assertionError
            | Except.error e => Except.error e
          else Except.error PyError.assertionError
      | Except.error e, _ => Except.error e
      | _, Except.error e => Except.error e
    else Except.error PyError.assertionError
  else Except.error PyError.assertionError

/-- The size-consistency prologue of `get_distance_group_dtw(a1, a2, size1,
size2, ...)`: tensor `a1` has shape `s1` (a triple `(N1, S1, D)`), `a2` has
shape `s2`, and the length vectors have `n1` and `n2` entries.  When
`n1 ≠ N1` the source prints the two shape pairs before the assertions run;
then `assert size1.size(0) == N1` and `assert size2.size(0) == N2` fire in
order.  The first component of the result collects the printed diagnostic
lines (each line pairs a tensor shape with a size-vector length); the second
is the outcome of the assertions. -/
def get_distance_group_dtw_sizecheck (s1 s2 : ℕ × ℕ × ℕ) (n1 n2 : ℕ) :
    List ((ℕ × ℕ × ℕ) × ℕ) × Except PyError Unit :=
  let log := if n1 ≠ s1.1 then [(s1, n1), (s2, n2)] else []
  ( log,
    if n1 = s1.1 then
      if n2 = s2.1 then Except.ok () else Except.error PyError.assertionError
    else Except.error PyError.assertionError )

/-- C3: the cosine batch distance entry `[i, j, s, t]` is
`arccos(clamp(dot, -1, 1)) / π` where `dot` sums the products over the
feature axis; for identical unit-normalised timestep vectors the distance
is `0`, and for orthogonal timestep vectors it is `1 / 2`. -/
theorem cosine_distance_formula_and_values {N1 S1 N2 S2 D : ℕ}
    (a1 : Fin N1 → Fin S1 → Fin D → ℝ) (a2 : Fin N2 → Fin S2 → Fin D → ℝ)
    (i : Fin N1) (j : Fin N2) (s : Fin S1) (t : Fin S2) :
    get_cosine_distance_batch a1 a2 i j s t =
      Real.arccos (tclamp (∑ d, a1 i s d * a2 j t d) (-1) 1) / Real.pi ∧
    (a1 i s = a2 j t → (∑ d, a1 i s d * a1 i s d) = 1 →
      get_cosine_distance_batch a1 a2 i j s t = 0) ∧
    ((∑ d, a1 i s d * a2 j t d) = 0 →
      get_cosine_distance_batch a1 a2 i j s t = 1 / 2) := by
  refine ⟨rfl, ?_, ?_⟩
  · intro hid hunit
    have hdot : (∑ d, a1 i s d * a2 j t d) = 1 := by rw [← hid] at *; exact hunit
    have hcl : tclamp (∑ d, a1 i s d * a2 j t d) (-1) 1 = 1 := by
      rw [hdot]; unfold tclamp; norm_num
    unfold get_cosine_distance_batch
    rw [hcl, Real.arccos_one, zero_div]
  · intro hdot
    have hcl : tclamp (∑ d, a1 i s d * a2 j t d) (-1) 1 = 0 := by
      rw [hdot]; unfold tclamp; norm_num
    unfold get_cosine_distance_batch
    rw [hcl, Real.arccos_zero]
    field_simp
    ring

/-- A one-sequence, one-timestep batch over two channels holding the unit
vector `(1, 0)`. -/
def unitBatchFst : Fin 1 → Fin 1 → Fin 2 → ℝ :=
  fun _ _ d => if d = 0 then 1 else 0

/-- A one-sequence, one-timestep batch over two channels holding the unit
vector `(0, 1)`. -/
def unitBatchSnd : Fin 1 → Fin 1 → Fin 2 → ℝ :=
  fun _ _ d => if d = 0 then 0 else 1

/-- Witness for C3 at a concrete input: batches of one sequence of one
timestep over two channels; the pair `(1,0)` against itself gives distance
`0`, and `(1,0)` against `(0,1)` gives distance `1 / 2`. -/
theorem cosine_distance_formula_and_values_witness :
    get_cosine_distance_batch unitBatchFst unitBatchFst 0 0 0 0 = 0 ∧
    get_cosine_distance_batch unitBatchFst unitBatchSnd 0 0 0 0 = 1 / 2 := by
  constructor
  · exact (cosine_distance_formula_and_values unitBatchFst unitBatchFst
      0 0 0 0).2.1 rfl (by simp [unitBatchFst, Fin.sum_univ_two])
  · exact (cosine_distance_formula_and_values unitBatchFst unitBatchSnd
      0 0 0 0).2.2 (by simp [unitBatchFst, unitBatchSnd, Fin.sum_univ_two])

/-- C4: the euclidian batch distance is symmetric up to transposition:
entry `[i, j, s, t]` of `distance(a1, a2)` equals entry `[j, i, t, s]` of
`distance(a2, a1)`. -/
theorem euclidian_distance_symmetric {N1 S1 N2 S2 D : ℕ}
    (a1 : Fin N1 → Fin S1 → Fin D → ℝ) (a2 : Fin N2 → Fin S2 → Fin D → ℝ)
    (i : Fin N1) (j : Fin N2) (s : Fin S1) (t : Fin S2) :
    get_euclidian_distance_batch a1 a2 i j s t =
      get_euclidian_distance_batch a2 a1 j i t s := by
  unfold get_euclidian_distance_batch
  congr 1
  refine Finset.sum_congr rfl fun d _ => ?_
  ring

/-- C5: the distance-function selector returns the euclidian and cosine
batch distance functions for the two recognised names and raises
`ValueError` for every other name; it is a pure selector that performs no
distance computation, no aligner call and no pool dispatch. -/
theorem distance_selector_spec (s : String)
    (h1 : s ≠ "euclidian") (h2 : s ≠ "cosine") :
    get_distance_function_from_name s = Except.error PyError.valueError ∧
    get_distance_function_from_name "euclidian" =
      Except.ok (fun _ _ _ _ _ a1 a2 => get_euclidian_distance_batch a1 a2) ∧
    get_distance_function_from_name "cosine" =
      Except.ok (fun _ _ _ _ _ a1 a2 => get_cosine_distance_batch a1 a2) := by
  refine ⟨?_, ?_, ?_⟩
  · unfold get_distance_function_from_name
    rw [if_neg h1, if_neg h2]
  · unfold get_distance_function_from_name
    rw [if_pos rfl]
  · unfold get_distance_function_from_name
    rw [if_neg (by decide), if_pos rfl]

/-- Witness for C5 at the concrete invalid name `"manhattan"`. -/
theorem distance_selector_spec_witness :
    get_distance_function_from_name "manhattan" =
      Except.error PyError.valueError ∧
    get_distance_function_from_name "euclidian" =
      Except.ok (fun _ _ _ _ _ a1 a2 => get_euclidian_distance_batch a1 a2) ∧
    get_distance_function_from_name "cosine" =
      Except.ok (fun _ _ _ _ _ a1 a2 => get_cosine_distance_batch a1 a2) :=
  distance_selector_spec "manhattan" (by decide) (by decide)

/-- C6: on rank-3-or-more shapes, `check_dtw_group_validity` succeeds
exactly when the three ranks coincide and the three sizes in dimension 2
(the feature dimension) coincide, and on any mismatch it fails with an
`AssertionError` (the explicit precondition check), not with any other
error. -/
theorem check_dtw_group_validity_spec (a b x : List ℕ)
    (ha : 3 ≤ a.length) (hb : 3 ≤ b.length) (hx : 3 ≤ x.length) :
    (check_dtw_group_validity a b x = Except.ok () ↔
      (a.length = b.length ∧ a.length = x.length ∧
       a.get? 2 = x.get? 2 ∧ a.get? 2 = b.get? 2)) ∧
    (¬ (a.length = b.length ∧ a.length = x.length ∧
        a.get? 2 = x.get? 2 ∧ a.get? 2 = b.get? 2) →
      check_dtw_group_validity a b x = Except.error PyError.assertionError) := by
  obtain ⟨da, hda⟩ : ∃ da, a.get? 2 = some da := by
    cases h : a.get? 2 with
    | none => exact absurd (List.get?_eq_none.mp h) (by omega)
    | some v => exact ⟨v, rfl⟩
  obtain ⟨db, hdb⟩ : ∃ db, b.get? 2 = some db := by
    cases h : b.get? 2 with
    | none => exact absurd (List.get?_eq_none.mp h) (by omega)
    | some v => exact ⟨v, rfl⟩
  obtain ⟨dx, hdx⟩ : ∃ dx, x.get? 2 = some dx := by
    cases h : x.get? 2 with
    | none => exact absurd (List.get?_eq_none.mp h) (by omega)
    | some v => exact ⟨v, rfl⟩
  unfold check_dtw_group_validity tensor_size
  rw [hda, hdb, hdx]
  by_cases h1 : a.length = b.length <;>
    by_cases h2 : a.length = x.length <;>
      by_cases h3 : da = dx <;>
        by_cases h4 : da = db <;>
          simp_all

/-- Witness for C6 at concrete matching shapes `(2, 3, 4)` for all three
groups: the check passes, and the mismatch branch is vacuously available. -/
theorem check_dtw_group_validity_spec_witness :
    (check_dtw_group_validity [2, 3, 4] [2, 3, 4] [2, 3, 4] = Except.ok () ↔
      (([2, 3, 4] : List ℕ).length = ([2, 3, 4] : List ℕ).length ∧
       ([2, 3, 4] : List ℕ).length = ([2, 3, 4] : List ℕ).length ∧
       ([2, 3, 4] : List ℕ).get? 2 = ([2, 3, 4] : List ℕ).get? 2 ∧
       ([2, 3, 4] : List ℕ).get? 2 = ([2, 3, 4] : List ℕ).get? 2)) ∧
    (¬ (([2, 3, 4] : List ℕ).length = ([2, 3, 4] : List ℕ).length ∧
        ([2, 3, 4] : List ℕ).length = ([2, 3, 4] : List ℕ).length ∧
        ([2, 3, 4] : List ℕ).get? 2 = ([2, 3, 4] : List ℕ).get? 2 ∧
        ([2, 3, 4] : List ℕ).get? 2 = ([2, 3, 4] : List ℕ).get? 2) →
      check_dtw_group_validity [2, 3, 4] [2, 3, 4] [2, 3, 4] =
        Except.error PyError.assertionError) :=
  check_dtw_group_validity_spec [2, 3, 4] [2, 3, 4] [2, 3, 4]
    (by decide) (by decide) (by decide)

/-- C9 counterexample: when only the second batch's length vector
mismatches (`n2 ≠ N2` but `n1 = N1`), the assertion fires with an empty
diagnostic log — no message is emitted for that batch, refuting the claim
that a mismatch on either batch is logged before the assertion. -/
theorem sizecheck_no_log_on_second_mismatch :
    (get_distance_group_dtw_sizecheck (2, 3, 4) (5, 3, 4) 2 4).1 = [] ∧
    (get_distance_group_dtw_sizecheck (2, 3, 4) (5, 3, 4) 2 4).2 =
      Except.error PyError.assertionError := by
  constructor <;> rfl

/-- C9 amended: a mismatch on the first batch's length vector logs both
batches' shape/length pairs and then fails the assertion; a mismatch only
on the second batch fails the assertion with no diagnostic output; when
both match, the check passes with no output.  In every mismatch case the
call fails hard rather than skipping. -/
theorem sizecheck_spec (s1 s2 : ℕ × ℕ × ℕ) (n1 n2 : ℕ) :
    (n1 ≠ s1.1 →
      (get_distance_group_dtw_sizecheck s1 s2 n1 n2).1 = [(s1, n1), (s2, n2)] ∧
      (get_distance_group_dtw_sizecheck s1 s2 n1 n2).2 =
        Except.error PyError.assertionError) ∧
    (n1 = s1.1 →
      (get_distance_group_dtw_sizecheck s1 s2 n1 n2).1 = [] ∧
      (n2 ≠ s2.1 →
        (get_distance_group_dtw_sizecheck s1 s2 n1 n2).2 =
          Except.error PyError.assertionError) ∧
      (n2 = s2.1 →
        (get_distance_group_dtw_sizecheck s1 s2 n1 n2).2 = Except.ok ())) := by
  unfold get_distance_group_dtw_sizecheck
  constructor
  · intro h
    simp [h]
  · intro h
    refine ⟨by simp [h], fun h2 => by simp [h, h2], fun h2 => by simp [h, h2]⟩

/-- Witness for C9's amended statement at concrete inputs: a first-batch
mismatch logs both shape pairs and fails; matching sizes pass quietly. -/
theorem sizecheck_spec_witness :
    ((get_distance_group_dtw_sizecheck (2, 3, 4) (5, 3, 4) 7 5).1 =
        [((2, 3, 4), 7), ((5, 3, 4), 5)] ∧
      (get_distance_group_dtw_sizecheck (2, 3, 4) (5, 3, 4) 7 5).2 =
        Except.error PyError.assertionError) ∧
    ((get_distance_group_dtw_sizecheck (2, 3, 4) (5, 3, 4) 2 5).1 = [] ∧
      (get_distance_group_dtw_sizecheck (2, 3, 4) (5, 3, 4) 2 5).2 =
        Except.ok ()) :=
  ⟨(sizecheck_spec (2, 3, 4) (5, 3, 4) 7 5).1 (by decide),
   ⟨((sizecheck_spec (2, 3, 4) (5, 3, 4) 2 5).2 (by decide)).1,
    (((sizecheck_spec (2, 3, 4) (5, 3, 4) 2 5).2 (by decide)).2.2 (by decide))⟩⟩

/-- The number of winning coordinates of `get_theta_group_dtw`: the count,
over the broadcast shape `(Nx, Na, Nb)`, of index triples `(x, a, b)` with
`dxa[x, a] < dxb[x, b]` (the `(dxa < dxb).sum()` term of the source). -/
def countWins {Nx Na Nb : ℕ} (dxa : Fin Nx → Fin Na → ℚ)
    (dxb : Fin Nx → Fin Nb → ℚ) : ℕ :=
  (Finset.univ.filter fun t : Fin Nx × Fin Na × Fin Nb =>
    dxa t.1 t.2.1 < dxb t.1 t.2.2).card

/-- The number of tied coordinates of `get_theta_group_dtw`: the count,
over the broadcast shape `(Nx, Na, Nb)`, of index triples `(x, a, b)` with
`dxa[x, a] == dxb[x, b]` (the `(dxa == dxb).sum()` term of the source). -/
def countTies {Nx Na Nb : ℕ} (dxa : Fin Nx → Fin Na → ℚ)
    (dxb : Fin Nx → Fin Nb → ℚ) : ℕ :=
  (Finset.univ.filter fun t : Fin Nx × Fin Na × Fin Nb =>
    dxa t.1 t.2.1 = dxb t.1 t.2.2).card

/-- `dxb.max().item()`: the largest entry of the `(Nx, Nb)` alignment-cost
matrix `dxb` (folded together with `0`; every entry of `dxb` is bounded by
this value, which is all the scorer relies on). -/
def dxbMax {Nx Nb : ℕ} (dxb : Fin Nx → Fin Nb → ℚ) : ℚ :=
  Finset.univ.fold max 0 (fun p : Fin Nx × Fin Nb => dxb p.1 p.2)

/-- The diagonal-overwrite loop of `get_theta_group_dtw` in symmetric mode:
`for i in range(Na): dxa[i, i] = max_val + 1`.  When `Na ≤ Nx` the loop
rewrites exactly the entries whose row and column index coincide. -/
def diagOverwrite {Nx Na : ℕ} (dxa : Fin Nx → Fin Na → ℚ) (m : ℚ) :
    Fin Nx → Fin Na → ℚ :=
  fun x a => if (x : ℕ) = (a : ℕ) then m + 1 else dxa x a

/-- The scoring stage of `get_theta_group_dtw(a, b, x, ...)`, taken from
the point where the two alignment-cost matrices `dxa : (Nx, Na)` and
`dxb : (Nx, Nb)` have been returned by the external DTW aligner.  In
symmetric mode the source first overwrites the diagonal of `dxa` with
`dxb.max() + 1`; its loop runs `i` over `range(Na)` and indexes `dxa[i, i]`,
which raises `IndexError` as soon as `i` reaches `Nx` — hence the `Na ≤ Nx`
guard.  The score divides `wins + 0.5 * ties` by `n_pos * Nb`, with
`n_pos = Na * (Na - 1)` in symmetric mode and `n_pos = Na * Nx` otherwise.
(Counting and division are modelled in exact rational arithmetic.) -/
def get_theta_group_dtw_core {Nx Na Nb : ℕ} (dxa : Fin Nx → Fin Na → ℚ)
    (dxb : Fin Nx → Fin Nb → ℚ) (symmetric : Bool) : Except PyError ℚ :=
  if symmetric then
    if Na ≤ Nx then
      Except.ok
        (((countWins (diagOverwrite dxa (dxbMax dxb)) dxb : ℚ) +
            1 / 2 * (countTies (diagOverwrite dxa (dxbMax dxb)) dxb : ℚ)) /
          (((Na * (Na - 1) : ℕ) : ℚ) * (Nb : ℚ)))
    else Except.error PyError.indexError
  else
    Except.ok
      (((countWins dxa dxb : ℚ) + 1 / 2 * (countTies dxa dxb : ℚ)) /
        (((Na * Nx : ℕ) : ℚ) * (Nb : ℚ)))

lemma le_dxbMax {Nx Nb : ℕ} (dxb : Fin Nx → Fin Nb → ℚ) (x : Fin Nx)
    (b : Fin Nb) : dxb x b ≤ dxbMax dxb :=
  (Finset.le_fold_max _).mpr (Or.inr ⟨(x, b), Finset.mem_univ _, le_refl _⟩)

lemma diag_entry_gt {Nx Na Nb : ℕ} (dxa : Fin Nx → Fin Na → ℚ)
    (dxb : Fin Nx → Fin Nb → ℚ) (x : Fin Nx) (a : Fin Na)
    (hxa : (x : ℕ) = (a : ℕ)) (b : Fin Nb) :
    dxb x b < diagOverwrite dxa (dxbMax dxb) x a := by
  unfold diagOverwrite
  rw [if_pos hxa]
  exact lt_of_le_of_lt (le_dxbMax dxb x b) (lt_add_one _)

lemma counts_le_total {Nx Na Nb : ℕ} (dxa : Fin Nx → Fin Na → ℚ)
    (dxb : Fin Nx → Fin Nb → ℚ) :
    countWins dxa dxb + countTies dxa dxb ≤ Nx * (Na * Nb) := by
  classical
  unfold countWins countTies
  rw [← Finset.card_union_of_disjoint
    (Finset.disjoint_filter.mpr fun t _ hlt heq => absurd heq (ne_of_lt hlt))]
  calc ((Finset.univ.filter fun t : Fin Nx × Fin Na × Fin Nb =>
          dxa t.1 t.2.1 < dxb t.1 t.2.2) ∪
        (Finset.univ.filter fun t : Fin Nx × Fin Na × Fin Nb =>
          dxa t.1 t.2.1 = dxb t.1 t.2.2)).card
      ≤ (Finset.univ : Finset (Fin Nx × Fin Na × Fin Nb)).card :=
        Finset.card_le_card (Finset.subset_univ _)
    _ = Nx * (Na * Nb) := by
        simp [Finset.card_univ]

lemma offdiag_card (n Nb : ℕ) :
    (Finset.univ.filter fun t : Fin n × Fin n × Fin Nb =>
      (t.1 : ℕ) ≠ (t.2.1 : ℕ)).card = n * ((n - 1) * Nb) := by
  classical
  rw [Finset.card_filter]
  simp only [Fintype.sum_prod_type]
  have hb : ∀ x a : Fin n,
      (∑ _b : Fin Nb, if (x : ℕ) ≠ (a : ℕ) then (1 : ℕ) else 0) =
        (if (x : ℕ) ≠ (a : ℕ) then Nb else 0) := by
    intro x a
    by_cases h : (x : ℕ) = (a : ℕ) <;> simp [h]
  simp only [hb]
  have ha : ∀ x : Fin n,
      (∑ a : Fin n, if (x : ℕ) ≠ (a : ℕ) then Nb else 0) = (n - 1) * Nb := by
    intro x
    rw [Finset.sum_ite, Finset.sum_const_zero, add_zero, Finset.sum_const,
      smul_eq_mul]
    congr 1
    have hcond : (Finset.univ.filter fun a : Fin n => (x : ℕ) ≠ (a : ℕ)) =
        Finset.univ.filter fun a : Fin n => x ≠ a := by
      apply Finset.filter_congr
      intro a _
      simp [Fin.val_eq_val]
    rw [hcond, Finset.filter_ne, Finset.card_erase_of_mem (Finset.mem_univ x),
      Finset.card_univ, Fintype.card_fin]
  simp only [ha]
  rw [Finset.sum_const, smul_eq_mul, Finset.card_univ, Fintype.card_fin]

lemma counts_le_offdiag {n Nb : ℕ} (dxa : Fin n → Fin n → ℚ)
    (dxb : Fin n → Fin Nb → ℚ) :
    countWins (diagOverwrite dxa (dxbMax dxb)) dxb +
      countTies (diagOverwrite dxa (dxbMax dxb)) dxb ≤ n * ((n - 1) * Nb) := by
  classical
  unfold countWins countTies
  rw [← Finset.card_union_of_disjoint
    (Finset.disjoint_filter.mpr fun t _ hlt heq => absurd heq (ne_of_lt hlt))]
  refine le_trans (Finset.card_le_card ?_) (le_of_eq (offdiag_card n Nb))
  intro t ht
  rw [Finset.mem_union] at ht
  rw [Finset.mem_filter]
  refine ⟨Finset.mem_univ _, fun hdiag => ?_⟩
  have hgt := diag_entry_gt dxa dxb t.1 t.2.1 hdiag t.2.2
  rcases ht with h | h
  · exact lt_asymm hgt (Finset.mem_filter.mp h).2
  · exact lt_irrefl _ ((Finset.mem_filter.mp h).2 ▸ hgt)

/-- C1: for a valid triplet (nonempty batches; in symmetric mode `A` and
`X` come from the same group, so `Na = Nx` with at least two members) the
scorer returns exactly `(wins + 0.5 * ties) / (n_pos * Nb)` — the counts
taken over the broadcast `(Nx, Na, Nb)` comparison of the (in symmetric
mode diagonal-overwritten) `dxa` against `dxb`, with
`n_pos = Na * (Na - 1)` when symmetric and `n_pos = Na * Nx` otherwise —
and this scalar lies in `[0, 1]`. -/
theorem theta_score_formula_and_range {Nx Na Nb : ℕ}
    (dxa : Fin Nx → Fin Na → ℚ) (dxb : Fin Nx → Fin Nb → ℚ)
    (symmetric : Bool) (hx : 1 ≤ Nx) (ha : 1 ≤ Na) (hb : 1 ≤ Nb)
    (hsym : symmetric = true → Na = Nx ∧ 2 ≤ Na) :
    ∃ sc : ℚ,
      get_theta_group_dtw_core dxa dxb symmetric = Except.ok sc ∧
      sc = ((countWins (if symmetric then diagOverwrite dxa (dxbMax dxb)
                        else dxa) dxb : ℚ) +
            1 / 2 * (countTies (if symmetric then diagOverwrite dxa (dxbMax dxb)
                                else dxa) dxb : ℚ)) /
          (((if symmetric then Na * (Na - 1) else Na * Nx : ℕ) : ℚ) *
            (Nb : ℚ)) ∧
      0 ≤ sc ∧ sc ≤ 1 := by
  cases symmetric with
  | false =>
    have hden : (0 : ℚ) < ((Na * Nx : ℕ) : ℚ) * (Nb : ℚ) := by
      have h1 : 0 < Na * Nx := Nat.mul_pos ha hx
      have h2 : (0 : ℚ) < ((Na * Nx : ℕ) : ℚ) := by exact_mod_cast h1
      have h3 : (0 : ℚ) < (Nb : ℚ) := by exact_mod_cast hb
      exact mul_pos h2 h3
    have hnum0 : (0 : ℚ) ≤ (countWins dxa dxb : ℚ) +
        1 / 2 * (countTies dxa dxb : ℚ) := by positivity
    have hnum_le : (countWins dxa dxb : ℚ) +
        1 / 2 * (countTies dxa dxb : ℚ) ≤ ((Na * Nx : ℕ) : ℚ) * (Nb : ℚ) := by
      have h1 : countWins dxa dxb + countTies dxa dxb ≤ Nx * (Na * Nb) :=
        counts_le_total dxa dxb
      have h2 : ((countWins dxa dxb + countTies dxa dxb : ℕ) : ℚ) ≤
          ((Nx * (Na * Nb) : ℕ) : ℚ) := by exact_mod_cast h1
      have h3 : (0 : ℚ) ≤ (countTies dxa dxb : ℚ) := Nat.cast_nonneg _
      push_cast at h2
      push_cast
      linarith
    refine ⟨_, rfl, by simp, div_nonneg hnum0 (le_of_lt hden),
      (div_le_one hden).mpr hnum_le⟩
  | true =>
    obtain ⟨hNaNx, hNa2⟩ := hsym rfl
    subst hNaNx
    have hden : (0 : ℚ) < ((Na * (Na - 1) : ℕ) : ℚ) * (Nb : ℚ) := by
      have h1 : 0 < Na * (Na - 1) := Nat.mul_pos (by omega) (by omega)
      have h2 : (0 : ℚ) < ((Na * (Na - 1) : ℕ) : ℚ) := by exact_mod_cast h1
      have h3 : (0 : ℚ) < (Nb : ℚ) := by exact_mod_cast hb
      exact mul_pos h2 h3
    have hnum0 : (0 : ℚ) ≤
        (countWins (diagOverwrite dxa (dxbMax dxb)) dxb : ℚ) +
        1 / 2 * (countTies (diagOverwrite dxa (dxbMax dxb)) dxb : ℚ) := by
      positivity
    have hnum_le : (countWins (diagOverwrite dxa (dxbMax dxb)) dxb : ℚ) +
        1 / 2 * (countTies (diagOverwrite dxa (dxbMax dxb)) dxb : ℚ) ≤
        ((Na * (Na - 1) : ℕ) : ℚ) * (Nb : ℚ) := by
      have h1 := counts_le_offdiag dxa dxb
      have h2 : ((countWins (diagOverwrite dxa (dxbMax dxb)) dxb +
          countTies (diagOverwrite dxa (dxbMax dxb)) dxb : ℕ) : ℚ) ≤
          ((Na * ((Na - 1) * Nb) : ℕ) : ℚ) := by exact_mod_cast h1
      have h3 : (0 : ℚ) ≤
          (countTies (diagOverwrite dxa (dxbMax dxb)) dxb : ℚ) :=
        Nat.cast_nonneg _
      push_cast at h2
      push_cast
      linarith
    refine ⟨_, ?_, by simp, div_nonneg hnum0 (le_of_lt hden),
      (div_le_one hden).mpr hnum_le⟩
    simp [get_theta_group_dtw_core]

/-- A concrete `(1, 1)` alignment-cost matrix holding `0`. -/
def mZero : Fin 1 → Fin 1 → ℚ := fun _ _ => 0

/-- A concrete `(1, 1)` alignment-cost matrix holding `1`. -/
def mOne : Fin 1 → Fin 1 → ℚ := fun _ _ => 1

/-- Witness for C1 at a concrete non-symmetric triplet with
`Nx = Na = Nb = 1`, `dxa = [[0]]`, `dxb = [[1]]`. -/
theorem theta_score_formula_and_range_witness :
    ∃ sc : ℚ,
      get_theta_group_dtw_core mZero mOne false = Except.ok sc ∧
      sc = ((countWins (if false then diagOverwrite mZero (dxbMax mOne)
                        else mZero) mOne : ℚ) +
            1 / 2 * (countTies (if false then diagOverwrite mZero (dxbMax mOne)
                                else mZero) mOne : ℚ)) /
          (((if false then 1 * (1 - 1) else 1 * 1 : ℕ) : ℚ) * ((1 : ℕ) : ℚ)) ∧
      0 ≤ sc ∧ sc ≤ 1 :=
  theta_score_formula_and_range mZero mOne false (by decide) (by decide)
    (by decide) (by decide)

/-- C2: in symmetric mode with `Na = Nx`, after the diagonal of `dxa` is
overwritten with `max(dxb) + 1`, no diagonal entry is strictly below or
equal to any `dxb` entry of its row, and consequently the set of broadcast
coordinates on the diagonal that would contribute a win or a tie is
empty. -/
theorem symmetric_diagonal_excluded {n Nb : ℕ} (dxa : Fin n → Fin n → ℚ)
    (dxb : Fin n → Fin Nb → ℚ) :
    (∀ (i : Fin n) (b : Fin Nb),
      ¬ (diagOverwrite dxa (dxbMax dxb) i i < dxb i b) ∧
      diagOverwrite dxa (dxbMax dxb) i i ≠ dxb i b) ∧
    (Finset.univ.filter fun t : Fin n × Fin n × Fin Nb =>
      (t.1 : ℕ) = (t.2.1 : ℕ) ∧
      (diagOverwrite dxa (dxbMax dxb) t.1 t.2.1 < dxb t.1 t.2.2 ∨
       diagOverwrite dxa (dxbMax dxb) t.1 t.2.1 = dxb t.1 t.2.2)).card = 0 := by
  classical
  constructor
  · intro i b
    have hgt := diag_entry_gt dxa dxb i i rfl b
    exact ⟨lt_asymm hgt, fun he => lt_irrefl _ (he ▸ hgt)⟩
  · rw [Finset.card_eq_zero, Finset.filter_eq_empty_iff]
    intro t _
    rintro ⟨hdiag, hcontr⟩
    have hgt := diag_entry_gt dxa dxb t.1 t.2.1 hdiag t.2.2
    rcases hcontr with h | h
    · exact lt_asymm hgt h
    · exact lt_irrefl _ (h ▸ hgt)

/-- A concrete `(2, 2)` alignment-cost matrix holding `0`. -/
def mDiagA : Fin 2 → Fin 2 → ℚ := fun _ _ => 0

/-- A concrete `(2, 1)` alignment-cost matrix holding `5`. -/
def mDiagB : Fin 2 → Fin 1 → ℚ := fun _ _ => 5

/-- Witness for C2 at a concrete symmetric input with `Na = Nx = 2`,
`Nb = 1`, instantiated at the first diagonal position. -/
theorem symmetric_diagonal_excluded_witness :
    (¬ (diagOverwrite mDiagA (dxbMax mDiagB) 0 0 < mDiagB 0 0) ∧
      diagOverwrite mDiagA (dxbMax mDiagB) 0 0 ≠ mDiagB 0 0) ∧
    (Finset.univ.filter fun t : Fin 2 × Fin 2 × Fin 1 =>
      (t.1 : ℕ) = (t.2.1 : ℕ) ∧
      (diagOverwrite mDiagA (dxbMax mDiagB) t.1 t.2.1 < mDiagB t.1 t.2.2 ∨
       diagOverwrite mDiagA (dxbMax mDiagB) t.1 t.2.1 =
         mDiagB t.1 t.2.2)).card = 0 :=
  ⟨(symmetric_diagonal_excluded mDiagA mDiagB).1 0 0,
   (symmetric_diagonal_excluded mDiagA mDiagB).2⟩

/-- C10: the scorer never verifies `Na = Nx` in symmetric mode.  When
`Na > Nx` the diagonal-overwrite loop indexes row `Nx` of the `(Nx, Na)`
matrix `dxa` and the evaluation fails with an `IndexError` before any
score is produced; when `Na ≤ Nx` it completes without error — even when
`Na ≠ Nx` — silently normalising by `n_pos = Na * (Na - 1)`. -/
theorem symmetric_mode_shape_unchecked {Nx Na Nb : ℕ}
    (dxa : Fin Nx → Fin Na → ℚ) (dxb : Fin Nx → Fin Nb → ℚ) :
    (Nx < Na →
      get_theta_group_dtw_core dxa dxb true = Except.error PyError.indexError) ∧
    (Na ≤ Nx →
      get_theta_group_dtw_core dxa dxb true = Except.ok
        (((countWins (diagOverwrite dxa (dxbMax dxb)) dxb : ℚ) +
            1 / 2 * (countTies (diagOverwrite dxa (dxbMax dxb)) dxb : ℚ)) /
          (((Na * (Na - 1) : ℕ) : ℚ) * (Nb : ℚ)))) := by
  constructor
  · intro h
    simp [get_theta_group_dtw_core, Nat.not_le.mpr h]
  · intro h
    simp [get_theta_group_dtw_core, h]

/-- A concrete `(1, 2)` alignment-cost matrix holding `0`: one X row but
two A columns, i.e. `Na > Nx`. -/
def mWide : Fin 1 → Fin 2 → ℚ := fun _ _ => 0

/-- Witness for C10 at concrete inputs: with `Nx = 1 < Na = 2` the
symmetric scorer raises `IndexError`; with `Nx = Na = 1` it returns the
symmetric-normalised score. -/
theorem symmetric_mode_shape_unchecked_witness :
    get_theta_group_dtw_core mWide mOne true = Except.error PyError.indexError ∧
    get_theta_group_dtw_core mZero mOne true = Except.ok
      (((countWins (diagOverwrite mZero (dxbMax mOne)) mOne : ℚ) +
          1 / 2 * (countTies (diagOverwrite mZero (dxbMax mOne)) mOne : ℚ)) /
        (((1 * (1 - 1) : ℕ) : ℚ) * ((1 : ℕ) : ℚ))) :=
  ⟨(symmetric_mode_shape_unchecked mWide mOne).1 (by decide),
   (symmetric_mode_shape_unchecked mZero mOne).2 (by decide)⟩

/-- `worker(worker_rank, nprocess, group_iterator, ...)`: enumerate the
group sequence, keep the indices assigned to this rank by
`index % nprocess == worker_rank`, and pair each kept index with the
evaluation of its unit (progress reporting on rank 0 is observability only
and does not touch the collected data). -/
def worker {α β : Type} (worker_rank nprocess : ℕ) (group_iterator : List α)
    (f : α → β) : List (ℕ × β) :=
  (group_iterator.enum.filter fun p => p.1 % nprocess = worker_rank).map
    fun p => (p.1, f p.2)

/-- Fully sequential evaluation of the group sequence in index order: the
reference behaviour the merged pool output must coincide with. -/
def seq_eval {α β : Type} (group_iterator : List α) (f : α → β) :
    List (ℕ × β) :=
  group_iterator.enum.map fun p => (p.1, f p.2)

/-- The fan-in of `get_abx_scores_dtw_on_group`: concatenate the per-rank
partial lists in rank order (`for j in jobs: all_worker_data += j.result()`)
and sort the result by original index (`all_worker_data.sort()`; the
indices are pairwise distinct, so sorting the pairs by their first
component is the list the source's lexicographic tuple sort produces). -/
def all_worker_data {α β : Type} (nprocess : ℕ) (group_iterator : List α)
    (f : α → β) : List (ℕ × β) :=
  List.insertionSort (fun p q => p.1 ≤ q.1)
    ((List.range nprocess).flatMap fun r => worker r nprocess group_iterator f)

/-- `worker` with a fallible unit evaluator: the first unit whose
evaluation raises makes the whole worker process raise. -/
def workerE {α β ε : Type} (worker_rank nprocess : ℕ) (group_iterator : List α)
    (f : α → Except ε β) : Except ε (List (ℕ × β)) :=
  (group_iterator.enum.filter fun p => p.1 % nprocess = worker_rank).mapM
    fun p => (f p.2).map fun y => (p.1, y)

/-- The fan-in of `get_abx_scores_dtw_on_group` with fallible unit
evaluation: `j.result()` re-raises the first failed worker in rank order,
aborting the pool; only if every worker returns does the merge produce the
sorted list handed to the sparse-structure constructor. -/
def all_worker_dataE {α β ε : Type} (nprocess : ℕ) (group_iterator : List α)
    (f : α → Except ε β) : Except ε (List (ℕ × β)) := do
  let parts ← (List.range nprocess).mapM fun r =>
    workerE r nprocess group_iterator f
  pure (List.insertionSort (fun p q => p.1 ≤ q.1) parts.flatten)

lemma worker_eq_filter_seq_eval {α β : Type} (r n : ℕ) (L : List α)
    (f : α → β) :
    worker r n L f = (seq_eval L f).filter fun p => p.1 % n = r := by
  unfold worker seq_eval
  rw [List.filter_map]
  rfl

lemma flatMap_filter_key_perm {γ : Type} (key : γ → ℕ) :
    ∀ (rs : List ℕ), rs.Nodup → ∀ (L : List γ), (∀ x ∈ L, key x ∈ rs) →
    (rs.flatMap fun r => L.filter fun x => key x = r).Perm L := by
  intro rs
  induction rs with
  | nil =>
    intro _ L hL
    have hnil : L = [] :=
      List.eq_nil_iff_forall_not_mem.mpr fun x hx => by simpa using hL x hx
    subst hnil
    simp
  | cons r rs ih =>
    intro hnd L hL
    have hr : r ∉ rs := (List.nodup_cons.mp hnd).1
    have hnd2 : rs.Nodup := (List.nodup_cons.mp hnd).2
    rw [List.flatMap_cons]
    have hptw : ∀ r2 ∈ rs, (L.filter fun x => key x = r2) =
        (L.filter fun x => !(decide (key x = r))).filter
          fun x => key x = r2 := by
      intro r2 hr2
      have hne : r2 ≠ r := fun he => hr (he ▸ hr2)
      rw [List.filter_filter]
      have hfun : (fun a => decide (key a = r2) && !(decide (key a = r))) =
          fun a => decide (key a = r2) := by
        funext a
        by_cases h : key a = r2
        · simp [h, hne]
        · simp [h]
      rw [hfun]
    have htail : (rs.flatMap fun r2 => L.filter fun x => key x = r2) =
        rs.flatMap fun r2 =>
          (L.filter fun x => !(decide (key x = r))).filter
            fun x => key x = r2 := by
      rw [List.flatMap_def, List.flatMap_def]
      exact congrArg List.flatten (List.map_congr_left hptw)
    rw [htail]
    have hihp : ((rs.flatMap fun r2 =>
        (L.filter fun x => !(decide (key x = r))).filter
          fun x => key x = r2)).Perm
        (L.filter fun x => !(decide (key x = r))) := by
      refine ih hnd2 _ fun x hx => ?_
      have hxm := List.mem_filter.mp hx
      have hxr : key x ≠ r := by simpa using hxm.2
      rcases List.mem_cons.mp (hL x hxm.1) with h | h
      · exact absurd h hxr
      · exact h
    exact ((List.Perm.append_left _ hihp).trans
      (List.filter_append_perm (fun x => decide (key x = r)) L))

lemma all_worker_data_perm {α β : Type} (n : ℕ) (L : List α) (f : α → β)
    (hn : 1 ≤ n) :
    ((List.range n).flatMap fun r => worker r n L f).Perm (seq_eval L f) := by
  have hw : ∀ r, worker r n L f = (seq_eval L f).filter
      fun p => p.1 % n = r := fun r => worker_eq_filter_seq_eval r n L f
  simp only [hw]
  exact flatMap_filter_key_perm (fun p => p.1 % n) (List.range n)
    (List.nodup_range n) (seq_eval L f)
    (fun x _ => List.mem_range.mpr (Nat.mod_lt _ (by omega)))

lemma seq_eval_map_fst {α β : Type} (L : List α) (f : α → β) :
    (seq_eval L f).map Prod.fst = List.range L.length := by
  unfold seq_eval
  rw [List.map_map]
  have hcomp : (Prod.fst ∘ fun p : ℕ × α => (p.1, f p.2)) = Prod.fst := rfl
  rw [hcomp, List.enum_map_fst]

lemma seq_eval_sorted {α β : Type} (L : List α) (f : α → β) :
    (seq_eval L f).Pairwise fun p q => p.1 < q.1 := by
  have hr := List.pairwise_lt_range L.length
  rw [← seq_eval_map_fst L f] at hr
  exact List.pairwise_map.mp hr

/-- C7: for every group sequence, every `nprocess ≥ 1` and the
index-modulo assignment of units to workers, the merged, index-sorted pool
output equals the fully sequential evaluation — in particular it is
identical, pair by pair, to the `nprocess = 1` run, independent of worker
completion order. -/
theorem pool_merge_deterministic {α β : Type} (nprocess : ℕ) (L : List α)
    (f : α → β) (hn : 1 ≤ nprocess) :
    all_worker_data nprocess L f = seq_eval L f ∧
    all_worker_data nprocess L f = all_worker_data 1 L f := by
  have main : ∀ m, 1 ≤ m → all_worker_data m L f = seq_eval L f := by
    intro m hm
    unfold all_worker_data
    haveI : IsTotal (ℕ × β) fun p q => p.1 ≤ q.1 :=
      ⟨fun a b => Nat.le_total a.1 b.1⟩
    haveI : IsTrans (ℕ × β) fun p q => p.1 ≤ q.1 :=
      ⟨fun a b c hab hbc => Nat.le_trans hab hbc⟩
    haveI : IsAntisymm (ℕ × β) fun p q => p.1 < q.1 :=
      ⟨fun a b hab hba => absurd (Nat.lt_trans hab hba) (Nat.lt_irrefl _)⟩
    have hperm : (List.insertionSort (fun p q : ℕ × β => p.1 ≤ q.1)
        ((List.range m).flatMap fun r => worker r m L f)).Perm
        (seq_eval L f) :=
      (List.perm_insertionSort _ _).trans (all_worker_data_perm m L f hm)
    have hle : List.Sorted (fun p q : ℕ × β => p.1 ≤ q.1)
        (List.insertionSort (fun p q : ℕ × β => p.1 ≤ q.1)
          ((List.range m).flatMap fun r => worker r m L f)) :=
      List.sorted_insertionSort _ _
    have hnodup : ((List.insertionSort (fun p q : ℕ × β => p.1 ≤ q.1)
        ((List.range m).flatMap fun r => worker r m L f)).map
          Prod.fst).Nodup := by
      rw [(hperm.map Prod.fst).nodup_iff, seq_eval_map_fst]
      exact List.nodup_range _
    have hne := List.pairwise_map.mp hnodup
    have hlt : List.Sorted (fun p q : ℕ × β => p.1 < q.1)
        (List.insertionSort (fun p q : ℕ × β => p.1 ≤ q.1)
          ((List.range m).flatMap fun r => worker r m L f)) :=
      (hle.and hne).imp fun h => Nat.lt_of_le_of_ne h.1 h.2
    exact List.eq_of_perm_of_sorted hperm hlt (seq_eval_sorted L f)
  exact ⟨main nprocess hn, (main nprocess hn).trans (main 1 le_rfl).symm⟩

/-- Witness for C7 at a concrete input: four units, three workers, unit
evaluation adding one. -/
theorem pool_merge_deterministic_witness :
    all_worker_data 3 [10, 20, 30, 40] (fun x : ℕ => x + 1) =
      seq_eval [10, 20, 30, 40] (fun x : ℕ => x + 1) ∧
    all_worker_data 3 [10, 20, 30, 40] (fun x : ℕ => x + 1) =
      all_worker_data 1 [10, 20, 30, 40] (fun x : ℕ => x + 1) :=
  pool_merge_deterministic 3 [10, 20, 30, 40] (fun x : ℕ => x + 1)
    (by decide)

lemma mapM_error_of_mem {γ δ ε : Type} (g : γ → Except ε δ) :
    ∀ (l : List γ) (x : γ), x ∈ l → (∃ e, g x = Except.error e) →
    ∃ eo, l.mapM g = Except.error eo := by
  intro l
  induction l with
  | nil => intro x hx; cases hx
  | cons hd tl ih =>
    intro x hx hge
    obtain ⟨e, he⟩ := hge
    rw [List.mapM_cons]
    rcases List.mem_cons.mp hx with rfl | hmem
    · rw [he]
      exact ⟨e, rfl⟩
    · cases hg : g hd with
      | error e2 =>
        exact ⟨e2, rfl⟩
      | ok v =>
        obtain ⟨eo, ho⟩ := ih x hmem ⟨e, he⟩
        rw [ho]
        exact ⟨eo, rfl⟩

/-- C8: if the evaluation of any single group unit raises in any worker,
the whole pool run fails: the fan-in re-raises and no merged (sorted) list
— and hence no sparse score structure, which is built from that list — is
produced. -/
theorem worker_failure_aborts_pool {α β ε : Type} (nprocess : ℕ)
    (L : List α) (f : α → Except ε β) (hn : 1 ≤ nprocess)
    (hfail : ∃ x ∈ L, ∃ e, f x = Except.error e) :
    ∃ eo, all_worker_dataE nprocess L f = Except.error eo := by
  obtain ⟨x, hxL, e, he⟩ := hfail
  obtain ⟨⟨i, hi⟩, hget⟩ := List.mem_iff_get.mp hxL
  rw [List.get_eq_getElem] at hget
  have hworker : ∃ eo, workerE (i % nprocess) nprocess L f =
      Except.error eo := by
    apply mapM_error_of_mem _ _ (i, x)
    · rw [List.mem_filter]
      refine ⟨?_, by simp⟩
      rw [List.mem_enum_iff_getElem?]
      rw [List.getElem?_eq_getElem hi, hget]
    · exact ⟨e, by rw [he]; rfl⟩
  obtain ⟨eo, ho⟩ := hworker
  have houter : ∃ eo2, ((List.range nprocess).mapM fun r =>
      workerE r nprocess L f) = Except.error eo2 := by
    apply mapM_error_of_mem _ _ (i % nprocess)
    · exact List.mem_range.mpr (Nat.mod_lt _ (by omega))
    · exact ⟨eo, ho⟩
  obtain ⟨eo2, ho2⟩ := houter
  refine ⟨eo2, ?_⟩
  unfold all_worker_dataE
  rw [ho2]
  rfl

/-- Witness for C8 at a concrete input: two units on two workers where the
second unit's evaluation raises; the pool run fails as a whole. -/
theorem worker_failure_aborts_pool_witness :
    ∃ eo, all_worker_dataE 2 [0, 1]
      (fun x : ℕ => if x = 1 then Except.error "boom" else Except.ok x) =
      Except.error eo :=
  worker_failure_aborts_pool 2 [0, 1]
    (fun x : ℕ => if x = 1 then Except.error "boom" else Except.ok x)
    (by decide) ⟨1, by simp, "boom", rfl⟩

end ABX
